import Mathlib

/-!
Verification of the royal-recipes generative-content orchestration layer.

The definitions below are a shallow embedding of the TypeScript source:
  * `src/components/RichInstruction.tsx` — the `<< name | quantity >>` markup
    split/tokenisation used for rendering,
  * `src/services/geminiService.ts` — `withRetry`, `generateRecipe`,
    `generateLeftoverSuggestions`, `generateRecipeVisual`, `generateStepVisual`
    (its `cleanText` helper), `generateStepAudio` (its `spokenText` helper),
    and `pcmToWav`,
  * `src/components/RecipeCard.tsx` — the background step-image loop.

Strings are modelled as `List Char`; the JavaScript regular expressions used
by the source are compiled by hand into deterministic scanners (the patterns
involved have no genuine backtracking: every character class is forced).
Scanners take an explicit fuel argument (fuel = input length always
suffices) so that every definition reduces inside the kernel.
-/

namespace RoyalRecipes

/-! ## The markup scanners (RichInstruction.tsx and geminiService.ts) -/

/--
One attempt of the regular expression `<<([^|]+)\|([^>]+)>>` at the head of
the input (used by `cleanText` in `generateStepVisual` and by `spokenText`
in `generateStepAudio`).  Returns `(name, quantity, rest)` on a match.
`[^|]+` forces `name` to be the non-empty run up to the first `|`;
`[^>]+` forces `quantity` to be the non-empty run up to the first `>`,
which must be immediately followed by a second `>`.
-/
def matchAnn : List Char → Option (List Char × List Char × List Char)
  | c1 :: c2 :: rest =>
    if c1 = '<' ∧ c2 = '<' then
      let name := rest.takeWhile (fun c => c ≠ '|')
      if name = [] then none
      else
        match rest.dropWhile (fun c => c ≠ '|') with
        | _ :: rest2 =>
          let qty := rest2.takeWhile (fun c => c ≠ '>')
          if qty = [] then none
          else
            match rest2.dropWhile (fun c => c ≠ '>') with
            | _ :: d2 :: rest3 =>
              if d2 = '>' then some (name, qty, rest3) else none
            | _ => none
        | [] => none
    else none
  | _ => none

/--
Global regex replacement, as in `text.replace(/<<([^|]+)\|[^>]+>>/g, …)`:
scan left to right, at each position try the pattern; on a match emit
`f name quantity` and continue after the match, otherwise emit the
character and advance by one.  `fuel` bounds the recursion; any
`fuel ≥ length` gives the same result.
-/
def replaceAnnGo (f : List Char → List Char → List Char) : Nat → List Char → List Char
  | 0, l => l
  | _ + 1, [] => []
  | fuel + 1, c :: cs =>
    match matchAnn (c :: cs) with
    | some (n, q, r) => f n q ++ replaceAnnGo f fuel r
    | none => c :: replaceAnnGo f fuel cs

def replaceAnn (f : List Char → List Char → List Char) (l : List Char) : List Char :=
  replaceAnnGo f l.length l

/-- Helper `cleanText` from `generateStepVisual`:
`text.replace(/<<([^|]+)\|[^>]+>>/g, '$1')`. -/
def cleanTextL (l : List Char) : List Char :=
  replaceAnn (fun n _ => n) l

/-- Helper `spokenText` from `generateStepAudio`:
`text.replace(/<<([^|]+)\|([^>]+)>>/g, '$2 of $1')`. -/
def spokenTextL (l : List Char) : List Char :=
  replaceAnn (fun n q => q ++ (" of ").data ++ n) l

/--
One attempt of the split pattern `<<[^>]+>>` (from
`text.split(/(<<[^>]+>>)/g)` in `RichInstruction`) at the head of the
input.  Returns `(content, rest)`: `content` is the non-empty run of
non-`>` characters after `<<`, which must be followed by `>>`.
-/
def matchSpan : List Char → Option (List Char × List Char)
  | c1 :: c2 :: rest =>
    if c1 = '<' ∧ c2 = '<' then
      let content := rest.takeWhile (fun c => c ≠ '>')
      if content = [] then none
      else
        match rest.dropWhile (fun c => c ≠ '>') with
        | _ :: d2 :: rest2 => if d2 = '>' then some (content, rest2) else none
        | _ => none
    else none
  | _ => none

/-- Prepend a character onto the first part of a split result. -/
def consHead (c : Char) : List (List Char) → List (List Char)
  | [] => [[c]]
  | h :: t => (c :: h) :: t

/--
`text.split(/(<<[^>]+>>)/g)`: the resulting parts alternate between
(possibly empty) non-matching text and matched spans, matched spans
included because of the capturing group.  `fuel` as in `replaceAnnGo`.
-/
def splitSpansGo : Nat → List Char → List (List Char)
  | 0, l => [l]
  | _ + 1, [] => [[]]
  | fuel + 1, c :: cs =>
    match matchSpan (c :: cs) with
    | some (content, rest) =>
      [] :: ('<' :: '<' :: content ++ ['>', '>']) :: splitSpansGo fuel rest
    | none => consHead c (splitSpansGo fuel cs)

def splitSpans (l : List Char) : List (List Char) :=
  splitSpansGo l.length l

/-- JavaScript `content.split('|')`: empty pieces are kept, and the empty
string splits to `[""]`. -/
def jsSplitBar : List Char → List (List Char)
  | [] => [[]]
  | c :: cs =>
    if c = '|' then [] :: jsSplitBar cs
    else consHead c (jsSplitBar cs)

/-- A token produced by `RichInstruction`: either plain text rendered
verbatim, or an `IngredientTooltip` rendering `name` inline (the quantity
appears only in the tooltip). -/
inductive RToken where
  | lit (s : List Char)
  | ann (name quantity : List Char)
deriving DecidableEq, Repr

/--
The per-part mapping of `RichInstruction` (lines 40–52): if the part starts
with `<<` and ends with `>>`, slice off the delimiters, split the content on
`|` and destructure the first two pieces as `[name, quantity]`; when both
are non-empty (truthy) emit a tooltip token, otherwise re-emit the part as
plain text.
-/
def partToToken (p : List Char) : RToken :=
  if ('<' :: '<' :: []).isPrefixOf p ∧ ('>' :: '>' :: []).isSuffixOf p then
    let content := (p.drop 2).take (p.length - 4)
    match jsSplitBar content with
    | n :: q :: _ => if n ≠ [] ∧ q ≠ [] then .ann n q else .lit p
    | _ => .lit p
  else .lit p

/-- The full parse-for-render tokenisation of `RichInstruction`. -/
def richTokens (l : List Char) : List RToken :=
  (splitSpans l).map partToToken

/-- The text a token contributes to the inline (visible) flow. -/
def tokenVisible : RToken → List Char
  | .lit s => s
  | .ann n _ => n

/-- The visible text of a rendered instruction (quantities are dropped;
they only appear in tooltips). -/
def visibleText (l : List Char) : List Char :=
  ((richTokens l).map tokenVisible).flatMap id

/-! ## Retry policy (`withRetry`, geminiService.ts lines 62–86) -/

/-- The shape of the error values `withRetry` inspects: optional `status`,
optional numeric `code`, optional `message`. -/
structure ApiError where
  status : Option Nat
  code : Option Nat
  message : Option (List Char)
deriving DecidableEq, Repr

/-- JavaScript `haystack.includes(pattern)`. -/
def hasSubstr (pat l : List Char) : Bool :=
  (List.range (l.length + 1)).any (fun i => pat.isPrefixOf (l.drop i))

/-- The rate-limit classification of `withRetry`:
`error?.status === 429 || error?.code === 429 ||
 (error?.message && error.message.includes('429')) ||
 (error?.message && error.message.includes('quota'))`. -/
def isRateLimit (e : ApiError) : Bool :=
  e.status == some 429 || e.code == some 429 ||
    (match e.message with
     | some m => hasSubstr ("429").data m || hasSubstr ("quota").data m
     | none => false)

/-- The observable outcome of `withRetry`: a value returned by `fn`, an
error re-thrown from `fn`, or the trailing
`throw new Error("Max retries exceeded")` after the loop. -/
inductive RetryOutcome (α : Type) where
  | ok (v : α)
  | err (e : ApiError)
  | exhausted
deriving DecidableEq, Repr

/--
The loop of `withRetry`, with the attempt modelled as a function from the
zero-based attempt index to its result.  `fuel` is the number of loop
iterations still allowed (`retries - i`); the recorded list collects the
waits `baseDelay * 2 ^ i` performed between attempts.  The retry branch is
taken when the error is rate-limited and `i < retries - 1`, i.e. when at
least one more iteration remains after this one (`0 < fuel - 1`).
-/
def withRetryGo {α : Type} (op : Nat → Except ApiError α) (baseDelay : Nat) :
    Nat → Nat → RetryOutcome α × List Nat
  | 0, _ => (.exhausted, [])
  | k + 1, i =>
    match op i with
    | .ok v => (.ok v, [])
    | .error e =>
      if isRateLimit e ∧ 0 < k then
        let res := withRetryGo op baseDelay k (i + 1)
        (res.1, baseDelay * 2 ^ i :: res.2)
      else (.err e, [])

/-- The wrapper `withRetry(fn, retries, baseDelay)`; the defaults in the source are
`retries = 3`, `baseDelay = 2000`. -/
def withRetry {α : Type} (op : Nat → Except ApiError α) (retries baseDelay : Nat) :
    RetryOutcome α × List Nat :=
  withRetryGo op baseDelay retries 0

/-! ## JSON-returning operations (geminiService.ts lines 88–147) -/

/-- JSON values, for the bodies the generation endpoint returns. -/
inductive Json where
  | null
  | bool (b : Bool)
  | num (n : Int)
  | str (s : List Char)
  | arr (xs : List Json)
  | obj (fields : List (List Char × Json))
deriving BEq, Repr

/--
A structured-content response as the service code consumes it:
`text` is `response.text` (`undefined` modelled as `none`), and `parsed`
is the outcome of the platform call `JSON.parse(text)` — `none` when the
text is not valid JSON.  The platform parser itself is external to the
repository, so its verdict travels with the modelled response.
-/
structure GenResponse where
  text : Option (List Char)
  parsed : Option Json

/-- The error thrown by `throw new Error("No content generated")`. -/
def noContentError : ApiError :=
  { status := none, code := none, message := some ("No content generated").data }

/-- The `SyntaxError` thrown by `JSON.parse` on invalid input. -/
def jsonSyntaxError : ApiError :=
  { status := none, code := none,
    message := some ("Unexpected token in JSON").data }

/-- One attempt of `generateRecipe`'s callback: propagate an API error,
throw on a falsy body, throw on invalid JSON, otherwise return
`JSON.parse(text) as Recipe` — with no validation of the shape. -/
def recipeAttempt (resp : Except ApiError GenResponse) : Except ApiError Json :=
  match resp with
  | .error e => .error e
  | .ok r =>
    match r.text with
    | none => .error noContentError
    | some t =>
      if t = [] then .error noContentError
      else
        match r.parsed with
        | none => .error jsonSyntaxError
        | some j => .ok j

/-- Operation `generateRecipe`, with the upstream call modelled as a function from
the attempt index to the response. -/
def generateRecipe (api : Nat → Except ApiError GenResponse) :
    RetryOutcome Json × List Nat :=
  withRetry (fun i => recipeAttempt (api i)) 3 2000

/-- Does a JSON value have the shape `recipeSchema` requires?  Required
fields: `title` (string), `description` (string), `ingredients` (array of
strings), `steps` (array of objects each with required `instruction`
(string) and `type` (one of `PREP`, `COOK`, `TIMING`)). -/
def jlookup (k : List Char) : List (List Char × Json) → Option Json
  | [] => none
  | (k', v) :: fs => if k' = k then some v else jlookup k fs

def isJsonStr : Json → Bool
  | .str _ => true
  | _ => false

def stepConforms : Json → Bool
  | .obj fs =>
    (match jlookup ("instruction").data fs with
     | some (.str _) => true
     | _ => false) &&
    (match jlookup ("type").data fs with
     | some (.str t) =>
       t = ("PREP").data || t = ("COOK").data || t = ("TIMING").data
     | _ => false)
  | _ => false

def conformsToRecipeSchema : Json → Bool
  | .obj fs =>
    (match jlookup ("title").data fs with
     | some (.str _) => true
     | _ => false) &&
    (match jlookup ("description").data fs with
     | some (.str _) => true
     | _ => false) &&
    (match jlookup ("ingredients").data fs with
     | some (.arr xs) => xs.all isJsonStr
     | _ => false) &&
    (match jlookup ("steps").data fs with
     | some (.arr xs) => xs.all stepConforms
     | _ => false)
  | _ => false

/-- One attempt of `generateLeftoverSuggestions`' callback: a falsy body
returns `[]` (inside the retry), invalid JSON throws, valid JSON is
returned as the suggestion array. -/
def leftoverAttempt (resp : Except ApiError GenResponse) : Except ApiError Json :=
  match resp with
  | .error e => .error e
  | .ok r =>
    match r.text with
    | none => .ok (Json.arr [])
    | some t =>
      if t = [] then .ok (Json.arr [])
      else
        match r.parsed with
        | none => .error jsonSyntaxError
        | some j => .ok j

/-- Operation `generateLeftoverSuggestions`: the retry-wrapped attempt inside a
`try … catch` that turns every thrown error into the empty array. -/
def generateLeftoverSuggestions (api : Nat → Except ApiError GenResponse) : Json :=
  match (withRetry (fun i => leftoverAttempt (api i)) 3 2000).1 with
  | .ok v => v
  | _ => Json.arr []

/-! ## Image and audio operations (geminiService.ts lines 149–312) -/

/-- One element of `response.candidates?.[0]?.content?.parts`. -/
structure InlinePart where
  inlineData : Option (List Char × List Char)

/-- A response for the image operations: the parts list (absent chains
default to `[]` via `|| []`). -/
structure VisResponse where
  parts : List InlinePart

/-- The scan `for (const part of parts) if (part.inlineData) return …`:
first inline payload as a data-URI string, `null` when there is none. -/
def firstInline : List InlinePart → Option (List Char)
  | [] => none
  | p :: ps =>
    match p.inlineData with
    | some (mime, data) =>
      some (("data:").data ++ mime ++ (";base64,").data ++ data)
    | none => firstInline ps

def visualAttempt (resp : Except ApiError VisResponse) :
    Except ApiError (Option (List Char)) :=
  match resp with
  | .error e => .error e
  | .ok r => .ok (firstInline r.parts)

/-- Operation `generateRecipeVisual`: retry-wrapped scan inside a `try … catch`
returning `null` on any thrown error. -/
def generateRecipeVisual (api : Nat → Except ApiError VisResponse) :
    Option (List Char) :=
  match (withRetry (fun i => visualAttempt (api i)) 3 2000).1 with
  | .ok v => v
  | _ => none

/-! ### `pcmToWav` (geminiService.ts lines 229–262) -/

/-- Write `view.setUint16(off, n, true)`: two little-endian bytes. -/
def le16 (n : Nat) : List Nat :=
  [n % 256, n / 256 % 256]

/-- Write `view.setUint32(off, n, true)`: four little-endian bytes. -/
def le32 (n : Nat) : List Nat :=
  [n % 256, n / 256 % 256, n / 256 ^ 2 % 256, n / 256 ^ 3 % 256]

/-- Write `writeString(view, off, s)`: the character codes of `s`. -/
def asciiCodes (s : List Char) : List Nat :=
  s.map Char.toNat

/--
`pcmToWav(pcmData, sampleRate)` as the byte sequence of the produced Blob:
the 44-byte RIFF/WAVE header (mono, 16-bit) followed by the PCM payload
copied verbatim.
-/
def pcmToWav (pcm : List Nat) (sampleRate : Nat) : List Nat :=
  let numChannels := 1
  let bitsPerSample := 16
  let byteRate := sampleRate * numChannels * bitsPerSample / 8
  let blockAlign := numChannels * bitsPerSample / 8
  let dataSize := pcm.length
  asciiCodes ("RIFF").data ++ le32 (36 + dataSize) ++ asciiCodes ("WAVE").data ++
    asciiCodes ("fmt ").data ++ le32 16 ++ le16 1 ++ le16 numChannels ++
    le32 sampleRate ++ le32 byteRate ++ le16 blockAlign ++ le16 bitsPerSample ++
    asciiCodes ("data").data ++ le32 dataSize ++ pcm

/-- Little-endian 16-bit read at a byte offset (out-of-range bytes read 0). -/
def readLE16 (l : List Nat) (off : Nat) : Nat :=
  l.getD off 0 + 256 * l.getD (off + 1) 0

/-- Little-endian 32-bit read at a byte offset (out-of-range bytes read 0). -/
def readLE32 (l : List Nat) (off : Nat) : Nat :=
  l.getD off 0 + 256 * l.getD (off + 1) 0 +
    256 ^ 2 * l.getD (off + 2) 0 + 256 ^ 3 * l.getD (off + 3) 0

/-- A response for the speech operation: the base64 audio payload of
`candidates?.[0]?.content?.parts?.[0]?.inlineData?.data`, carried here
already decoded to bytes (the platform's `atob`/`charCodeAt` decode). -/
structure AudioResponse where
  audioData : Option (List Nat)

/-- The handle `URL.createObjectURL(wavBlob)`: opaque to the caller, keyed
by the WAV bytes it refers to. -/
inductive AudioHandle where
  | url (wav : List Nat)
deriving DecidableEq

def audioAttempt (resp : Except ApiError AudioResponse) :
    Except ApiError (Option AudioHandle) :=
  match resp with
  | .error e => .error e
  | .ok r =>
    match r.audioData with
    | some bytes => .ok (some (.url (pcmToWav bytes 24000)))
    | none => .ok none

/-- Operation `generateStepAudio`: the markup is first converted to spoken form, the
speech request (modelled as a function of the spoken text and the attempt
index) is retry-wrapped, and the whole call sits in a `try … catch`
returning `null` on any thrown error. -/
def generateStepAudio (text : List Char)
    (api : List Char → Nat → Except ApiError AudioResponse) : Option AudioHandle :=
  let spoken := spokenTextL text
  match (withRetry (fun i => audioAttempt (api spoken i)) 3 2000).1 with
  | .ok v => v
  | _ => none

/-! ## The background step-image loop (RecipeCard.tsx lines 20–60) -/

/-- The context clause `generateStepVisual` embeds in its prompt: the
markup-stripped previous instructions joined by `"; "`, or the
start-of-recipe clause when there are none. -/
def contextStr (previous : List (List Char)) : List Char :=
  let cleanPrevious := previous.map cleanTextL
  if 0 < cleanPrevious.length then
    ("PREVIOUS STEPS CONTEXT (The dish state so far): ").data ++
      List.intercalate ("; ").data cleanPrevious ++ (".").data
  else ("Start of recipe.").data

/-- Observable events of the `generateAllStepImages` loop. -/
inductive LoopEv where
  | req (i : Nat) (context : List Char)
  | store (i : Nat) (url : List Char)
  | wait (ms : Nat)
deriving DecidableEq, Repr

def isReqEv : LoopEv → Bool
  | .req _ _ => true
  | _ => false

def isWaitEv : LoopEv → Bool
  | .wait _ => true
  | _ => false

def isStoreEv : LoopEv → Bool
  | .store _ _ => true
  | _ => false

/--
The event trace of `generateAllStepImages` while the component stays
mounted: for each step index in order, a cached index is skipped entirely
(`continue`), otherwise a `generateStepVisual` request is issued with the
context built from the previous instructions, a returned URL is stored, a
thrown error is swallowed, and a 4000 ms delay follows when the index is
not the last.  `cache` is the `stepImages` snapshot the effect closure
captured; `outcome` is the result of the request (`.error` for a thrown
error, `.ok none` for a `null` result).
-/
def generateAllStepImages (steps : List (List Char)) (cache : Nat → Bool)
    (outcome : Nat → Except Unit (Option (List Char))) : List LoopEv :=
  (List.range steps.length).flatMap (fun i =>
    if cache i then []
    else
      [LoopEv.req i (contextStr (steps.take i))] ++
        (match outcome i with
         | .ok (some url) => [LoopEv.store i url]
         | _ => []) ++
        (if i < steps.length - 1 then [LoopEv.wait 4000] else []))

/-! ## Decompositions of instruction text into literal text and markup -/

/-- A segment of instruction text: either plain text or one
`<< name | quantity >>` marker. -/
inductive Seg where
  | txt (s : List Char)
  | pair (name quantity : List Char)
deriving DecidableEq, Repr

/-- The wire form of a segment. -/
def renderSeg : Seg → List Char
  | .txt s => s
  | .pair n q => '<' :: '<' :: (n ++ '|' :: (q ++ '>' :: '>' :: []))

/-- The wire form of a decomposed text. -/
def renderSegs : List Seg → List Char
  | [] => []
  | s :: L => renderSeg s ++ renderSegs L

/-- Replace every marker by `f name quantity`, keeping plain text. -/
def applySegs (f : List Char → List Char → List Char) : List Seg → List Char
  | [] => []
  | .txt s :: L => s ++ applySegs f L
  | .pair n q :: L => f n q ++ applySegs f L

/-- Well-formedness exactly as claim C1 words it: `name` and `quantity`
non-empty, containing no `|` and no `>>` sequence. -/
def claimWF : Seg → Prop
  | .txt _ => True
  | .pair n q =>
    n ≠ [] ∧ q ≠ [] ∧ '|' ∉ n ∧ '|' ∉ q ∧
      hasSubstr ('>' :: '>' :: []) n = false ∧ hasSubstr ('>' :: '>' :: []) q = false

instance : DecidablePred claimWF := fun s => by
  cases s <;> dsimp [claimWF] <;> infer_instance

/-- The strengthened well-formedness under which the three transforms do
round-trip: markers contain none of `|`, `<`, `>`, and the surrounding
plain text contains no `<` or `>`. -/
def goodSeg : Seg → Prop
  | .txt s => ∀ c ∈ s, c ≠ '<' ∧ c ≠ '>'
  | .pair n q =>
    n ≠ [] ∧ q ≠ [] ∧ ∀ c ∈ n ++ q, c ≠ '|' ∧ c ≠ '<' ∧ c ≠ '>'

instance : DecidablePred goodSeg := fun s => by
  cases s <;> dsimp [goodSeg] <;> infer_instance

/-- A concrete well-formed instruction used to instantiate the round-trip
theorem. -/
def demoSegs : List Seg :=
  [.txt ("Add ").data, .pair ("butter").data ("50g").data, .txt (" to pan").data]

/-- The 44-byte RIFF/WAVE header `pcmToWav` writes, with the string fields
written out as their character codes. -/
def wavHeader (sampleRate dataSize : Nat) : List Nat :=
  [82, 73, 70, 70] ++ le32 (36 + dataSize) ++ [87, 65, 86, 69] ++
    [102, 109, 116, 32] ++ le32 16 ++ le16 1 ++ le16 1 ++ le32 sampleRate ++
    le32 (sampleRate * 1 * 16 / 8) ++ le16 (1 * 16 / 8) ++ le16 16 ++
    [100, 97, 116, 97] ++ le32 dataSize

/-- A rate-limited error (status 429). -/
def rlErr : ApiError := ⟨some 429, none, none⟩

/-- A non-rate-limited error (status 500, message free of `429`/`quota`). -/
def plainErr : ApiError := ⟨some 500, none, none⟩

/-- An upstream failure used to exercise the best-effort operations. -/
def failErr : ApiError := ⟨some 503, none, some ("Service Unavailable").data⟩

/-- An operation that succeeds immediately, used to instantiate the
retry-loop safety theorem. -/
def okOp : Nat → Except ApiError Nat := fun _ => .ok 5

/-- Prepend plain text onto the first part of a split result. -/
def prepHead (s : List Char) : List (List Char) → List (List Char)
  | [] => [s]
  | h :: t => (s ++ h) :: t

/-- The visible text contributed by a list of split parts. -/
def partsVisible : List (List Char) → List Char
  | [] => []
  | p :: P => tokenVisible (partToToken p) ++ partsVisible P

/-! ## Scanner lemmas -/

theorem takeWhile_append_stop {α : Type} {p : α → Bool} {a : List α} {b : α} {r : List α}
    (ha : ∀ c ∈ a, p c = true) (hb : p b = false) :
    (a ++ b :: r).takeWhile p = a := by
  induction a with
  | nil => simp [List.takeWhile_cons, hb]
  | cons c a ih =>
    have hc : p c = true := ha c (by simp)
    simp only [List.cons_append, List.takeWhile_cons, hc, if_pos]
    rw [ih (fun x hx => ha x (by simp [hx]))]

theorem dropWhile_append_stop {α : Type} {p : α → Bool} {a : List α} {b : α} {r : List α}
    (ha : ∀ c ∈ a, p c = true) (hb : p b = false) :
    (a ++ b :: r).dropWhile p = b :: r := by
  induction a with
  | nil => simp [List.dropWhile_cons, hb]
  | cons c a ih =>
    have hc : p c = true := ha c (by simp)
    simp only [List.cons_append, List.dropWhile_cons, hc, if_pos]
    exact ih (fun x hx => ha x (by simp [hx]))

theorem matchAnn_length {l : List Char} {n q r : List Char}
    (h : matchAnn l = some (n, q, r)) : r.length + 4 ≤ l.length := by
  match l with
  | [] => simp [matchAnn] at h
  | [c] => simp [matchAnn] at h
  | c1 :: c2 :: rest =>
    simp only [matchAnn] at h
    split at h
    · split at h
      · simp at h
      · split at h
        · rename_i rest2 heq
          split at h
          · simp at h
          · split at h
            · rename_i d1 d2 rest3 heq2
              split at h
              · cases h
                have h1 : rest2.length + 1 ≤ rest.length := by
                  have hs := (List.dropWhile_sublist (l := rest)
                    (fun c => decide (c ≠ '|'))).length_le
                  rw [heq] at hs; simpa using hs
                have h2 : r.length + 2 ≤ rest2.length := by
                  have hs := (List.dropWhile_sublist (l := rest2)
                    (fun c => decide (c ≠ '>'))).length_le
                  rw [heq2] at hs; simpa using hs
                simp only [List.length_cons]
                omega
              · simp at h
            · simp at h
        · simp at h
    · simp at h

theorem matchSpan_length {l : List Char} {content r : List Char}
    (h : matchSpan l = some (content, r)) : r.length + 4 ≤ l.length := by
  match l with
  | [] => simp [matchSpan] at h
  | [c] => simp [matchSpan] at h
  | c1 :: c2 :: rest =>
    simp only [matchSpan] at h
    split at h
    · split at h
      · simp at h
      · split at h
        · rename_i d1 d2 rest2 heq
          split at h
          · cases h
            have h1 : r.length + 2 ≤ rest.length := by
              have hs := (List.dropWhile_sublist (l := rest)
                (fun c => decide (c ≠ '>'))).length_le
              rw [heq] at hs; simpa using hs
            simp only [List.length_cons]
            omega
          · simp at h
        · simp at h
    · simp at h

theorem replaceAnnGo_congr (f : List Char → List Char → List Char) :
    ∀ (fuel₁ : Nat) (l : List Char) (fuel₂ : Nat), l.length ≤ fuel₁ → l.length ≤ fuel₂ →
      replaceAnnGo f fuel₁ l = replaceAnnGo f fuel₂ l := by
  intro fuel₁
  induction fuel₁ with
  | zero =>
    intro l fuel₂ h1 _
    have hl : l = [] := List.length_eq_zero.mp (Nat.le_zero.mp h1)
    subst hl
    cases fuel₂ <;> rfl
  | succ k ih =>
    intro l fuel₂ h1 h2
    cases l with
    | nil => cases fuel₂ <;> rfl
    | cons c cs =>
      cases fuel₂ with
      | zero => simp at h2
      | succ m =>
        cases hm : matchAnn (c :: cs) with
        | some x =>
          obtain ⟨n, q, r⟩ := x
          have hr : r.length + 4 ≤ cs.length + 1 := by simpa using matchAnn_length hm
          simp only [replaceAnnGo, hm]
          rw [ih r m (by simp at h1; omega) (by simp at h2; omega)]
        | none =>
          simp only [replaceAnnGo, hm]
          rw [ih cs m (by simp at h1; omega) (by simp at h2; omega)]

theorem replaceAnn_match {c : Char} {cs n q r : List Char}
    (f : List Char → List Char → List Char) (h : matchAnn (c :: cs) = some (n, q, r)) :
    replaceAnn f (c :: cs) = f n q ++ replaceAnn f r := by
  have hr : r.length + 4 ≤ cs.length + 1 := by simpa using matchAnn_length h
  show replaceAnnGo f (c :: cs).length (c :: cs) = _
  simp only [List.length_cons, replaceAnnGo, h]
  rw [replaceAnnGo_congr f cs.length r r.length (by omega) (le_refl _)]
  rfl

theorem replaceAnn_none {c : Char} {cs : List Char}
    (f : List Char → List Char → List Char) (h : matchAnn (c :: cs) = none) :
    replaceAnn f (c :: cs) = c :: replaceAnn f cs := by
  show replaceAnnGo f (c :: cs).length (c :: cs) = _
  simp only [List.length_cons, replaceAnnGo, h]
  rfl

theorem splitSpansGo_congr :
    ∀ (fuel₁ : Nat) (l : List Char) (fuel₂ : Nat), l.length ≤ fuel₁ → l.length ≤ fuel₂ →
      splitSpansGo fuel₁ l = splitSpansGo fuel₂ l := by
  intro fuel₁
  induction fuel₁ with
  | zero =>
    intro l fuel₂ h1 _
    have hl : l = [] := List.length_eq_zero.mp (Nat.le_zero.mp h1)
    subst hl
    cases fuel₂ <;> rfl
  | succ k ih =>
    intro l fuel₂ h1 h2
    cases l with
    | nil => cases fuel₂ <;> rfl
    | cons c cs =>
      cases fuel₂ with
      | zero => simp at h2
      | succ m =>
        cases hm : matchSpan (c :: cs) with
        | some x =>
          obtain ⟨content, r⟩ := x
          have hr : r.length + 4 ≤ cs.length + 1 := by simpa using matchSpan_length hm
          simp only [splitSpansGo, hm]
          rw [ih r m (by simp at h1; omega) (by simp at h2; omega)]
        | none =>
          simp only [splitSpansGo, hm]
          rw [ih cs m (by simp at h1; omega) (by simp at h2; omega)]

theorem splitSpans_match {c : Char} {cs content rest : List Char}
    (h : matchSpan (c :: cs) = some (content, rest)) :
    splitSpans (c :: cs) = [] :: ('<' :: '<' :: content ++ ['>', '>']) :: splitSpans rest := by
  have hr : rest.length + 4 ≤ cs.length + 1 := by simpa using matchSpan_length h
  show splitSpansGo (c :: cs).length (c :: cs) = _
  simp only [List.length_cons, splitSpansGo, h]
  rw [splitSpansGo_congr cs.length rest rest.length (by omega) (le_refl _)]
  rfl

theorem splitSpans_none {c : Char} {cs : List Char} (h : matchSpan (c :: cs) = none) :
    splitSpans (c :: cs) = consHead c (splitSpans cs) := by
  show splitSpansGo (c :: cs).length (c :: cs) = _
  simp only [List.length_cons, splitSpansGo, h]
  rfl

theorem matchAnn_none_head {c : Char} (cs : List Char) (h : c ≠ '<') :
    matchAnn (c :: cs) = none := by
  cases cs with
  | nil => rfl
  | cons c2 rest => simp [matchAnn, h]

theorem matchSpan_none_head {c : Char} (cs : List Char) (h : c ≠ '<') :
    matchSpan (c :: cs) = none := by
  cases cs with
  | nil => rfl
  | cons c2 rest => simp [matchSpan, h]

/-- The `<<([^|]+)\|([^>]+)>>` pattern matches a well-formed marker at the
head of the input and captures exactly its name and quantity. -/
theorem matchAnn_render {n q : List Char} (r : List Char)
    (hn : n ≠ []) (hnb : ∀ c ∈ n, c ≠ '|')
    (hq : q ≠ []) (hqg : ∀ c ∈ q, c ≠ '>') :
    matchAnn ('<' :: '<' :: (n ++ '|' :: (q ++ '>' :: '>' :: r))) = some (n, q, r) := by
  have htw : (n ++ '|' :: (q ++ '>' :: '>' :: r)).takeWhile (fun c => c ≠ '|') = n :=
    takeWhile_append_stop (by intro c hc; simpa using hnb c hc) (by simp)
  have hdw : (n ++ '|' :: (q ++ '>' :: '>' :: r)).dropWhile (fun c => c ≠ '|') =
      '|' :: (q ++ '>' :: '>' :: r) :=
    dropWhile_append_stop (by intro c hc; simpa using hnb c hc) (by simp)
  have htw2 : (q ++ '>' :: '>' :: r).takeWhile (fun c => c ≠ '>') = q :=
    takeWhile_append_stop (by intro c hc; simpa using hqg c hc) (by simp)
  have hdw2 : (q ++ '>' :: '>' :: r).dropWhile (fun c => c ≠ '>') = '>' :: '>' :: r :=
    dropWhile_append_stop (by intro c hc; simpa using hqg c hc) (by simp)
  dsimp only [matchAnn]
  rw [if_pos (And.intro rfl rfl), htw, hdw]
  dsimp only
  rw [if_neg hn, htw2, hdw2]
  dsimp only
  rw [if_neg hq, if_pos rfl]

/-- The split pattern `<<[^>]+>>` matches a well-formed span at the head of
the input and captures its content. -/
theorem matchSpan_render {m : List Char} (r : List Char)
    (hm : m ≠ []) (hmg : ∀ c ∈ m, c ≠ '>') :
    matchSpan ('<' :: '<' :: (m ++ '>' :: '>' :: r)) = some (m, r) := by
  have htw : (m ++ '>' :: '>' :: r).takeWhile (fun c => c ≠ '>') = m :=
    takeWhile_append_stop (by intro c hc; simpa using hmg c hc) (by simp)
  have hdw : (m ++ '>' :: '>' :: r).dropWhile (fun c => c ≠ '>') = '>' :: '>' :: r :=
    dropWhile_append_stop (by intro c hc; simpa using hmg c hc) (by simp)
  dsimp only [matchSpan]
  rw [if_pos (And.intro rfl rfl), htw, hdw]
  dsimp only
  rw [if_neg hm, if_pos rfl]

/-- A successful `matchAnn` needs a `>` somewhere in the input. -/
theorem matchAnn_mem_gt {l : List Char} {x : List Char × List Char × List Char}
    (h : matchAnn l = some x) : '>' ∈ l := by
  match l with
  | [] => simp [matchAnn] at h
  | [c] => simp [matchAnn] at h
  | c1 :: c2 :: rest =>
    simp only [matchAnn] at h
    split at h
    · split at h
      · simp at h
      · split at h
        · rename_i rest2 heq
          split at h
          · simp at h
          · split at h
            · rename_i d1 d2 rest3 heq2
              split at h
              · rename_i hd2
                subst hd2
                have hmem : '>' ∈ rest2.dropWhile (fun c => c ≠ '>') := by
                  rw [heq2]; simp
                have h2 : '>' ∈ rest2 :=
                  (List.dropWhile_sublist (fun c => decide (c ≠ '>'))).subset hmem
                have h3 : '>' ∈ rest.dropWhile (fun c => c ≠ '|') := by
                  rw [heq]; simp [h2]
                have h4 : '>' ∈ rest :=
                  (List.dropWhile_sublist (fun c => decide (c ≠ '|'))).subset h3
                simp [h4]
              · simp at h
            · simp at h
        · simp at h
    · simp at h

/-- A successful `matchSpan` needs a `>` somewhere in the input. -/
theorem matchSpan_mem_gt {l : List Char} {x : List Char × List Char}
    (h : matchSpan l = some x) : '>' ∈ l := by
  match l with
  | [] => simp [matchSpan] at h
  | [c] => simp [matchSpan] at h
  | c1 :: c2 :: rest =>
    simp only [matchSpan] at h
    split at h
    · split at h
      · simp at h
      · split at h
        · rename_i d1 d2 rest2 heq
          split at h
          · rename_i hd2
            subst hd2
            have hmem : '>' ∈ rest.dropWhile (fun c => c ≠ '>') := by
              rw [heq]; simp
            have h2 : '>' ∈ rest :=
              (List.dropWhile_sublist (fun c => decide (c ≠ '>'))).subset hmem
            simp [h2]
          · simp at h
        · simp at h
    · simp at h

/-- Plain text free of `<` is copied verbatim by the replacement scanner. -/
theorem replaceAnn_append_lit (f : List Char → List Char → List Char)
    {s : List Char} (r : List Char) (hs : ∀ c ∈ s, c ≠ '<') :
    replaceAnn f (s ++ r) = s ++ replaceAnn f r := by
  induction s with
  | nil => rfl
  | cons c s ih =>
    have hc : c ≠ '<' := (hs c (by simp))
    rw [List.cons_append, replaceAnn_none f (matchAnn_none_head _ hc)]
    rw [ih (fun x hx => hs x (by simp [hx]))]
    rfl

/-- The replacement scanner leaves a `>`-free text unchanged. -/
theorem replaceAnn_no_gt (f : List Char → List Char → List Char) :
    ∀ {l : List Char}, '>' ∉ l → replaceAnn f l = l := by
  intro l
  induction l with
  | nil => intro _; rfl
  | cons c cs ih =>
    intro h
    cases hm : matchAnn (c :: cs) with
    | some x => exact absurd (matchAnn_mem_gt hm) h
    | none =>
      rw [replaceAnn_none f hm, ih (fun hx => h (by simp [hx]))]

/-- The split scanner returns a `>`-free text as a single part. -/
theorem splitSpans_no_gt : ∀ {l : List Char}, '>' ∉ l → splitSpans l = [l] := by
  intro l
  induction l with
  | nil => intro _; rfl
  | cons c cs ih =>
    intro h
    cases hm : matchSpan (c :: cs) with
    | some x => exact absurd (matchSpan_mem_gt hm) h
    | none =>
      rw [splitSpans_none hm, ih (fun hx => h (by simp [hx]))]
      rfl

/-! ## Token lemmas -/

theorem jsSplitBar_no_bar {l : List Char} (h : '|' ∉ l) : jsSplitBar l = [l] := by
  induction l with
  | nil => rfl
  | cons c cs ih =>
    have hc : ¬ c = '|' := by rintro rfl; exact h (by simp)
    rw [jsSplitBar, if_neg hc, ih (fun hx => h (by simp [hx]))]
    rfl

theorem jsSplitBar_append {a : List Char} (b : List Char) (h : '|' ∉ a) :
    jsSplitBar (a ++ '|' :: b) = a :: jsSplitBar b := by
  induction a with
  | nil => rw [List.nil_append, jsSplitBar, if_pos rfl]
  | cons c cs ih =>
    have hc : ¬ c = '|' := by rintro rfl; exact h (by simp)
    rw [List.cons_append, jsSplitBar, if_neg hc, ih (fun hx => h (by simp [hx]))]
    rfl

theorem partToToken_lit {s : List Char} (hs : ∀ c ∈ s, c ≠ '<') :
    partToToken s = .lit s := by
  cases s with
  | nil => rfl
  | cons c cs =>
    have hc : c ≠ '<' := hs c (by simp)
    dsimp only [partToToken]
    rw [if_neg]
    rintro ⟨h1, -⟩
    simp only [List.isPrefixOf, Bool.and_eq_true, beq_iff_eq] at h1
    exact hc h1.1.symm

theorem partToToken_lit_no_gt {s : List Char} (hs : '>' ∉ s) :
    partToToken s = .lit s := by
  dsimp only [partToToken]
  rw [if_neg]
  rintro ⟨-, h2⟩
  rw [List.isSuffixOf_iff_suffix] at h2
  exact hs (h2.subset (by simp))

theorem partToToken_pair {n q : List Char} (hn : n ≠ []) (hq : q ≠ [])
    (hnb : '|' ∉ n) (hqb : '|' ∉ q) :
    partToToken ('<' :: '<' :: ((n ++ '|' :: q) ++ ['>', '>'])) = .ann n q := by
  have hpre : (('<' :: '<' :: []) :
      List Char).isPrefixOf ('<' :: '<' :: ((n ++ '|' :: q) ++ ['>', '>'])) = true := by
    simp [List.isPrefixOf]
  have hsuf : (('>' :: '>' :: []) :
      List Char).isSuffixOf ('<' :: '<' :: ((n ++ '|' :: q) ++ ['>', '>'])) = true := by
    rw [List.isSuffixOf_iff_suffix]
    exact ⟨'<' :: '<' :: (n ++ '|' :: q), by simp⟩
  have hlen : ('<' :: '<' :: ((n ++ '|' :: q) ++ ['>', '>'])).length - 4
      = (n ++ '|' :: q).length := by
    simp
    omega
  dsimp only [partToToken]
  rw [if_pos ⟨hpre, hsuf⟩, hlen]
  rw [show ('<' :: '<' :: ((n ++ '|' :: q) ++ ['>', '>'])).drop 2
      = (n ++ '|' :: q) ++ ['>', '>'] from rfl]
  rw [List.take_left]
  rw [jsSplitBar_append q hnb, jsSplitBar_no_bar hqb]
  dsimp only
  rw [if_pos ⟨hn, hq⟩]

theorem consHead_prepHead (c : Char) (s : List Char) (P : List (List Char)) :
    consHead c (prepHead s P) = prepHead (c :: s) P := by
  cases P <;> rfl

theorem splitSpans_ne_nil (l : List Char) : splitSpans l ≠ [] := by
  show splitSpansGo l.length l ≠ []
  cases hf : l.length with
  | zero => cases l <;> simp_all [splitSpansGo]
  | succ k =>
    cases l with
    | nil => simp [splitSpansGo]
    | cons c cs =>
      dsimp only [splitSpansGo]
      cases matchSpan (c :: cs) with
      | some x => obtain ⟨a, b⟩ := x; simp
      | none =>
        dsimp only
        cases splitSpansGo k cs <;> simp [consHead]

theorem splitSpans_append_lit {s : List Char} (r : List Char)
    (hs : ∀ c ∈ s, c ≠ '<') :
    splitSpans (s ++ r) = prepHead s (splitSpans r) := by
  induction s with
  | nil =>
    rw [List.nil_append]
    cases hP : splitSpans r with
    | nil => exact absurd hP (splitSpans_ne_nil r)
    | cons h t => simp [prepHead]
  | cons c s ih =>
    have hc : c ≠ '<' := hs c (by simp)
    rw [List.cons_append, splitSpans_none (matchSpan_none_head _ hc),
      ih (fun x hx => hs x (by simp [hx])), consHead_prepHead]

theorem partsVisible_eq (P : List (List Char)) :
    ((P.map partToToken).map tokenVisible).flatMap id = partsVisible P := by
  induction P with
  | nil => rfl
  | cons p P ih =>
    simp only [List.map_cons, List.flatMap_cons, id]
    rw [ih]
    rfl

theorem visibleText_eq_partsVisible (l : List Char) :
    visibleText l = partsVisible (splitSpans l) :=
  partsVisible_eq (splitSpans l)

/--
Splitting the wire form of a well-formed decomposition: the parts begin
with a plain (angle-bracket-free) part and the visible text collapses
markers to their names.
-/
theorem splitSpans_renderSegs :
    ∀ L : List Seg, (∀ s ∈ L, goodSeg s) →
      ∃ h t, splitSpans (renderSegs L) = h :: t ∧ (∀ c ∈ h, c ≠ '<' ∧ c ≠ '>') ∧
        partsVisible (h :: t) = applySegs (fun n _ => n) L := by
  intro L
  induction L with
  | nil =>
    intro _
    exact ⟨[], [], rfl, by simp, by simp [partsVisible, partToToken, tokenVisible, applySegs]⟩
  | cons s L ih =>
    intro hgood
    have hs := hgood s (by simp)
    obtain ⟨h, t, hsplit, hh, hvis⟩ := ih (fun x hx => hgood x (by simp [hx]))
    cases s with
    | txt u =>
      have hu : ∀ c ∈ u, c ≠ '<' ∧ c ≠ '>' := hs
      refine ⟨u ++ h, t, ?_, ?_, ?_⟩
      · rw [show renderSegs (Seg.txt u :: L) = u ++ renderSegs L from rfl,
          splitSpans_append_lit _ (fun c hc => (hu c hc).1), hsplit]
        rfl
      · intro c hc
        rcases List.mem_append.mp hc with h1 | h2
        · exact hu c h1
        · exact hh c h2
      · have hlitu : partToToken (u ++ h) = .lit (u ++ h) :=
          partToToken_lit (fun c hc => by
            rcases List.mem_append.mp hc with h1 | h2
            · exact (hu c h1).1
            · exact (hh c h2).1)
        have hlith : partToToken h = .lit h :=
          partToToken_lit (fun c hc => (hh c hc).1)
        dsimp only [partsVisible] at hvis ⊢
        rw [hlitu]
        rw [hlith] at hvis
        rw [show applySegs (fun n _ => n) (Seg.txt u :: L) =
          u ++ applySegs (fun n _ => n) L from rfl, ← hvis]
        dsimp only [tokenVisible]
        simp
    | pair n q =>
      obtain ⟨hn, hq, hg⟩ := hs
      have hnb : ∀ c ∈ n, c ≠ '|' := fun c hc => (hg c (by simp [hc])).1
      have hng : ∀ c ∈ n, c ≠ '>' := fun c hc => (hg c (by simp [hc])).2.2
      have hqb : ∀ c ∈ q, c ≠ '|' := fun c hc => (hg c (by simp [hc])).1
      have hqg : ∀ c ∈ q, c ≠ '>' := fun c hc => (hg c (by simp [hc])).2.2
      have hcontent : n ++ '|' :: q ≠ [] := by
        cases n <;> simp
      have hcg : ∀ c ∈ n ++ '|' :: q, c ≠ '>' := by
        intro c hc
        rcases List.mem_append.mp hc with h1 | h2
        · exact hng c h1
        · rcases List.mem_cons.mp h2 with h3 | h4
          · subst h3; decide
          · exact hqg c h4
      have hshape : renderSegs (Seg.pair n q :: L)
          = '<' :: '<' :: ((n ++ '|' :: q) ++ '>' :: '>' :: renderSegs L) := by
        show ('<' :: '<' :: (n ++ '|' :: (q ++ '>' :: '>' :: []))) ++ renderSegs L = _
        simp
      refine ⟨[], ('<' :: '<' :: (n ++ '|' :: q) ++ ['>', '>']) :: h :: t, ?_, by simp, ?_⟩
      · rw [hshape, splitSpans_match (matchSpan_render _ hcontent hcg), hsplit]
      · have hp : partToToken ('<' :: '<' :: ((n ++ '|' :: q) ++ ['>', '>'])) = .ann n q :=
          partToToken_pair hn hq (fun hx => absurd rfl (hnb '|' hx))
            (fun hx => absurd rfl (hqb '|' hx))
        dsimp only [partsVisible] at hvis ⊢
        rw [show ('<' :: '<' :: (n ++ '|' :: q) ++ ['>', '>'])
          = '<' :: '<' :: ((n ++ '|' :: q) ++ ['>', '>']) by simp]
        rw [hp, hvis]
        rfl

/-- Scanning the wire form of a well-formed decomposition replaces every
marker by `f name quantity` and keeps plain text. -/
theorem replaceAnn_renderSegs (f : List Char → List Char → List Char) :
    ∀ L : List Seg, (∀ s ∈ L, goodSeg s) →
      replaceAnn f (renderSegs L) = applySegs f L := by
  intro L
  induction L with
  | nil => intro _; rfl
  | cons s L ih =>
    intro hgood
    have hs := hgood s (by simp)
    have hL : ∀ x ∈ L, goodSeg x := fun x hx => hgood x (by simp [hx])
    cases s with
    | txt u =>
      have hu : ∀ c ∈ u, c ≠ '<' ∧ c ≠ '>' := hs
      rw [show renderSegs (Seg.txt u :: L) = u ++ renderSegs L from rfl,
        replaceAnn_append_lit f _ (fun c hc => (hu c hc).1), ih hL]
      rfl
    | pair n q =>
      obtain ⟨hn, hq, hg⟩ := hs
      have hshape : renderSegs (Seg.pair n q :: L)
          = '<' :: '<' :: (n ++ '|' :: (q ++ '>' :: '>' :: renderSegs L)) := by
        show ('<' :: '<' :: (n ++ '|' :: (q ++ '>' :: '>' :: []))) ++ renderSegs L = _
        simp
      rw [hshape,
        replaceAnn_match f (matchAnn_render _ hn
          (fun c hc => (hg c (by simp [hc])).1) hq
          (fun c hc => (hg c (by simp [hc])).2.2)),
        ih hL]
      rfl

/-! ## Step-image loop lemmas -/

theorem stepImages_filter_req (steps : List (List Char)) (cache : Nat → Bool)
    (outcome : Nat → Except Unit (Option (List Char))) :
    (generateAllStepImages steps cache outcome).filter isReqEv
      = (List.range steps.length).flatMap (fun i =>
          if cache i then [] else [LoopEv.req i (contextStr (steps.take i))]) := by
  unfold generateAllStepImages
  rw [List.filter_flatMap]
  congr 1
  funext i
  by_cases hc : cache i
  · simp [hc]
  · simp only [hc, Bool.false_eq_true, if_false, List.filter_append]
    cases ho : outcome i with
    | ok v =>
      cases v with
      | some url => by_cases hw : i < steps.length - 1 <;> simp [isReqEv, hw]
      | none => by_cases hw : i < steps.length - 1 <;> simp [isReqEv, hw]
    | error e => by_cases hw : i < steps.length - 1 <;> simp [isReqEv, hw]

theorem stepImages_filter_wait (steps : List (List Char)) (cache : Nat → Bool)
    (outcome : Nat → Except Unit (Option (List Char))) :
    (generateAllStepImages steps cache outcome).filter isWaitEv
      = (List.range steps.length).flatMap (fun i =>
          if cache i then []
          else if i < steps.length - 1 then [LoopEv.wait 4000] else []) := by
  unfold generateAllStepImages
  rw [List.filter_flatMap]
  congr 1
  funext i
  by_cases hc : cache i
  · simp [hc]
  · simp only [hc, Bool.false_eq_true, if_false, List.filter_append]
    cases ho : outcome i with
    | ok v =>
      cases v with
      | some url => by_cases hw : i < steps.length - 1 <;> simp [isWaitEv, hw]
      | none => by_cases hw : i < steps.length - 1 <;> simp [isWaitEv, hw]
    | error e => by_cases hw : i < steps.length - 1 <;> simp [isWaitEv, hw]

theorem flatMap_singleton_map {β : Type} (g : Nat → β) :
    ∀ l : List Nat, (l.flatMap (fun i => [g i])) = l.map g := by
  intro l
  induction l with
  | nil => rfl
  | cons a l ih => simp [ih]

theorem flatMap_ite_length {β : Type} (g : Nat → Bool) (x : β) :
    ∀ l : List Nat, (l.flatMap (fun i => if g i then [x] else [])).length
      = (l.filter g).length := by
  intro l
  induction l with
  | nil => rfl
  | cons a l ih => by_cases h : g a <;> simp [h, ih]

theorem range_filter_lt (n : Nat) :
    (List.range n).filter (fun i => decide (i < n - 1)) = List.range (n - 1) := by
  cases n with
  | zero => rfl
  | succ k =>
    rw [List.range_succ, List.filter_append]
    have h1 : (List.range k).filter (fun i => decide (i < k + 1 - 1)) = List.range k :=
      List.filter_eq_self.mpr (fun a ha => by
        have := List.mem_range.mp ha
        simp
        omega)
    rw [h1]
    simp

/-! ## Retry-loop characterization -/

/--
With at least one attempt allowed, the retry loop never reaches the
trailing throw: it returns the value or re-throws the error of some
attempt within range.
-/
theorem withRetryGo_chars {α : Type} (op : Nat → Except ApiError α) (d : Nat) :
    ∀ (fuel : Nat), ∀ i : Nat, 1 ≤ fuel →
      (withRetryGo op d fuel i).1 ≠ .exhausted
      ∧ ∃ j, i ≤ j ∧ j < i + fuel ∧
        ((∃ v, op j = .ok v ∧ (withRetryGo op d fuel i).1 = .ok v)
         ∨ (∃ e, op j = .error e ∧ (withRetryGo op d fuel i).1 = .err e)) := by
  intro fuel
  induction fuel with
  | zero => intro i h; exact absurd h (by omega)
  | succ k ih =>
    intro i _
    cases ho : op i with
    | ok v =>
      refine ⟨by simp [withRetryGo, ho], i, le_refl i, by omega, ?_⟩
      exact .inl ⟨v, ho, by simp [withRetryGo, ho]⟩
    | error e =>
      by_cases hc : isRateLimit e = true ∧ 0 < k
      · obtain ⟨hne, j, hj1, hj2, hj3⟩ := ih (i + 1) hc.2
        have hred : (withRetryGo op d (k + 1) i).1 = (withRetryGo op d k (i + 1)).1 := by
          simp [withRetryGo, ho, hc]
        refine ⟨by rw [hred]; exact hne, j, by omega, by omega, ?_⟩
        rw [hred]
        exact hj3
      · refine ⟨by simp [withRetryGo, ho, hc], i, le_refl i, by omega, ?_⟩
        exact .inr ⟨e, ho, by simp [withRetryGo, ho, hc]⟩

/-! ## WAV layout lemmas -/

theorem pcmToWav_eq (pcm : List Nat) (sr : Nat) :
    pcmToWav pcm sr = wavHeader sr pcm.length ++ pcm := by
  have h1 : asciiCodes ("RIFF").data = [82, 73, 70, 70] := by decide
  have h2 : asciiCodes ("WAVE").data = [87, 65, 86, 69] := by decide
  have h3 : asciiCodes ("fmt ").data = [102, 109, 116, 32] := by decide
  have h4 : asciiCodes ("data").data = [100, 97, 116, 97] := by decide
  unfold pcmToWav wavHeader
  rw [h1, h2, h3, h4]

theorem wavHeader_length (sr ds : Nat) : (wavHeader sr ds).length = 44 := by
  simp [wavHeader, le32, le16]

/-! ## Claim theorems -/

/--
Claim C1, counterexample.  The claim admits a quantity containing a single
`>` (only `|` and the two-character `>>` are excluded), e.g. the marker
with name `a` and quantity `b>c`, whose wire form is `<<a|b>c>>`.  The
claim then demands that strip-for-context yield `a`; the `[^>]+` quantity
class of the actual pattern cannot cross the lone `>`, so the text passes
through unchanged instead.
-/
theorem claim_C1_counterexample :
    claimWF (Seg.pair ("a").data ("b>c").data)
    ∧ renderSegs [Seg.pair ("a").data ("b>c").data] = ("<<a|b>c>>").data
    ∧ cleanTextL (("<<a|b>c>>").data) = ("<<a|b>c>>").data
    ∧ cleanTextL (("<<a|b>c>>").data) ≠ ("a").data := by
  refine ⟨by decide, by decide, by decide, by decide⟩

/--
Claim C1, amended: for text decomposed into plain segments containing no
angle bracket and markers whose non-empty name and quantity contain none
of `|`, `<`, `>`, the three transforms round-trip as the claim states:
strip-for-context (`cleanText`) and the visible text of parse-for-render
replace each marker by its name, and parse-for-speech replaces it by
`quantity ++ " of " ++ name`.
-/
theorem claim_C1 (L : List Seg) (h : ∀ s ∈ L, goodSeg s) :
    cleanTextL (renderSegs L) = applySegs (fun n _ => n) L
    ∧ visibleText (renderSegs L) = applySegs (fun n _ => n) L
    ∧ spokenTextL (renderSegs L)
        = applySegs (fun n q => q ++ (" of ").data ++ n) L := by
  refine ⟨replaceAnn_renderSegs _ L h, ?_, replaceAnn_renderSegs _ L h⟩
  obtain ⟨hd, t, hsplit, hh, hvis⟩ := splitSpans_renderSegs L h
  rw [visibleText_eq_partsVisible, hsplit, hvis]

/-- Claim C1, witness: the amended round-trip at the concrete instruction
`Add <<butter|50g>> to pan`. -/
theorem claim_C1_witness :
    cleanTextL (renderSegs demoSegs) = applySegs (fun n _ => n) demoSegs
    ∧ visibleText (renderSegs demoSegs) = applySegs (fun n _ => n) demoSegs
    ∧ spokenTextL (renderSegs demoSegs)
        = applySegs (fun n q => q ++ (" of ").data ++ n) demoSegs :=
  claim_C1 demoSegs (by decide)

/--
Claim C2: with 3 attempts and a 2000 ms base delay, rate-limited failures
on the first two attempts followed by success wait exactly 2000 ms and
then 4000 ms and return the success; a non-rate-limited failure on the
first attempt waits nowhere and propagates immediately.
-/
theorem claim_C2 {α : Type} :
    (∀ (op : Nat → Except ApiError α) (e1 e2 : ApiError) (v : α),
      op 0 = .error e1 → op 1 = .error e2 → op 2 = .ok v →
      isRateLimit e1 = true → isRateLimit e2 = true →
      withRetry op 3 2000 = (.ok v, [2000, 4000]))
    ∧ (∀ (op : Nat → Except ApiError α) (e : ApiError),
      op 0 = .error e → isRateLimit e = false →
      withRetry op 3 2000 = (.err e, [])) := by
  constructor
  · intro op e1 e2 v h0 h1 h2 hr1 hr2
    show withRetryGo op 2000 3 0 = _
    simp [withRetryGo, h0, h1, h2, hr1, hr2]
  · intro op e h0 hr
    show withRetryGo op 2000 3 0 = _
    simp [withRetryGo, h0, hr]

/-- Claim C2, witness: a concrete operation failing rate-limited twice then
succeeding, and a concrete operation failing plainly once. -/
theorem claim_C2_witness :
    withRetry (fun i => if i < 2 then .error rlErr else .ok 7) 3 2000
      = (.ok 7, [2000, 4000])
    ∧ withRetry (fun _ => (.error plainErr : Except ApiError Nat)) 3 2000
      = (.err plainErr, []) :=
  ⟨claim_C2.1 _ rlErr rlErr 7 rfl rfl rfl (by decide) (by decide),
   claim_C2.2 _ plainErr rfl (by decide)⟩

/--
Claim C3, counterexample.  `generateRecipe` parses the body with
`JSON.parse(text) as Recipe` and never validates the schema shape: for a
response whose body is the valid JSON text `[]`, it returns that value as
a recipe even though it does not conform to the declared schema, so the
claim that no Recipe value is returned on a schema mismatch fails.
-/
theorem claim_C3_counterexample :
    (generateRecipe (fun _ => .ok ⟨some (("[]").data), some (Json.arr [])⟩)).1
      = .ok (Json.arr [])
    ∧ conformsToRecipeSchema (Json.arr []) = false := by
  exact ⟨rfl, rfl⟩

/--
Claim C3, amended: `generateRecipe` propagates an error exactly when the
upstream call fails, the body is absent or empty, or the body is not valid
JSON; a valid-JSON body is returned as the recipe with no validation of
its shape, and any recipe value the call returns is exactly some
response's parsed JSON.
-/
theorem claim_C3 :
    (∀ (resp : Except ApiError GenResponse) (r : GenResponse) (t : List Char) (j : Json),
      resp = .ok r → r.text = some t → t ≠ [] → r.parsed = some j →
      recipeAttempt resp = .ok j)
    ∧ (∀ resp : Except ApiError GenResponse,
      (∀ (r : GenResponse) (t : List Char) (j : Json),
        ¬(resp = .ok r ∧ r.text = some t ∧ t ≠ [] ∧ r.parsed = some j)) →
      ∃ e, recipeAttempt resp = .error e)
    ∧ (∀ (api : Nat → Except ApiError GenResponse) (v : Json) (ws : List Nat),
      generateRecipe api = (.ok v, ws) →
      ∃ i r, api i = .ok r ∧ r.parsed = some v) := by
  refine ⟨?_, ?_, ?_⟩
  · rintro resp r t j rfl ht hne hp
    simp [recipeAttempt, ht, hne, hp]
  · intro resp hnone
    cases resp with
    | error e => exact ⟨e, rfl⟩
    | ok r =>
      cases ht : r.text with
      | none => exact ⟨noContentError, by simp [recipeAttempt, ht]⟩
      | some t =>
        by_cases hne : t = []
        · subst hne
          exact ⟨noContentError, by simp [recipeAttempt, ht]⟩
        · cases hp : r.parsed with
          | none => exact ⟨jsonSyntaxError, by simp [recipeAttempt, ht, hne, hp]⟩
          | some j => exact absurd ⟨rfl, ht, hne, hp⟩ (hnone r t j)
  · intro api v ws hret
    have hch := withRetryGo_chars (fun i => recipeAttempt (api i)) 2000 3 0 (by omega)
    obtain ⟨-, j, -, -, hcase⟩ := hch
    have hfst : (withRetryGo (fun i => recipeAttempt (api i)) 2000 3 0).1 = .ok v := by
      show (withRetry (fun i => recipeAttempt (api i)) 3 2000).1 = .ok v
      rw [show withRetry (fun i => recipeAttempt (api i)) 3 2000
        = generateRecipe api from rfl, hret]
    rcases hcase with ⟨v', hok, hres⟩ | ⟨e, -, hres⟩
    · rw [hfst] at hres
      cases hres
      have hok' : recipeAttempt (api j) = Except.ok v := hok
      refine ⟨j, ?_⟩
      cases ha : api j with
      | error e => rw [ha] at hok'; simp [recipeAttempt] at hok'
      | ok r =>
        rw [ha] at hok'
        refine ⟨r, rfl, ?_⟩
        cases ht : r.text with
        | none => simp [recipeAttempt, ht] at hok'
        | some t =>
          by_cases hne : t = []
          · subst hne; simp [recipeAttempt, ht] at hok'
          · cases hp : r.parsed with
            | none => simp [recipeAttempt, ht, hne, hp] at hok'
            | some j' =>
              have hjv : j' = v := by simpa [recipeAttempt, ht, hne, hp] using hok'
              rw [hjv]
    · rw [hfst] at hres
      cases hres

/-- Claim C3, witness: the amended behaviour at concrete responses — a
valid-JSON body is returned untouched, and an absent body yields an
error. -/
theorem claim_C3_witness :
    recipeAttempt (.ok ⟨some (("[]").data), some (Json.arr [])⟩) = .ok (Json.arr [])
    ∧ ∃ e, recipeAttempt (.ok ⟨none, none⟩) = .error e :=
  ⟨claim_C3.1 _ _ (("[]").data) _ rfl rfl (by decide) rfl,
   claim_C3.2.1 _ (by
     rintro r t j ⟨hr, ht, -, -⟩
     cases hr
     simp at ht)⟩

/--
Claim C4, counterexample.  The span `<<a|b|c>>` does not split into
exactly two parts on `|`, so the claim demands it be re-emitted as plain
text; the code destructures only the first two pieces of the split (`a`
and `b`, both non-empty) and emits a tooltip token, dropping `c`.
-/
theorem claim_C4_counterexample :
    richTokens (("<<a|b|c>>").data)
      = [.lit [], .ann ("a").data ("b").data, .lit []]
    ∧ RToken.lit (("<<a|b|c>>").data) ∉ richTokens (("<<a|b|c>>").data) := by
  refine ⟨by decide, by decide⟩

/--
Claim C4, amended: a matched span's token is decided by the first two
pieces of splitting the inner content on `|`: when both are non-empty an
annotation token carrying exactly those two pieces is emitted (any further
pieces are dropped), and the span is re-emitted as plain literal text
precisely when the split does not begin with two non-empty pieces (no `|`
at all, empty name, or empty piece before the second `|`).  The transform
is a total function, hence never throws.
-/
theorem claim_C4 (content : List Char) (h1 : content ≠ []) (h2 : '>' ∉ content) :
    (∀ n q r, jsSplitBar content = n :: q :: r → n ≠ [] → q ≠ [] →
       partToToken ('<' :: '<' :: content ++ ['>', '>']) = .ann n q)
    ∧ (partToToken ('<' :: '<' :: content ++ ['>', '>'])
         = .lit ('<' :: '<' :: content ++ ['>', '>'])
       ↔ ∀ n q r, jsSplitBar content = n :: q :: r → n = [] ∨ q = []) := by
  have hpre : (('<' :: '<' :: []) :
      List Char).isPrefixOf ('<' :: '<' :: content ++ ['>', '>']) = true := by
    simp [List.isPrefixOf]
  have hsuf : (('>' :: '>' :: []) :
      List Char).isSuffixOf ('<' :: '<' :: content ++ ['>', '>']) = true := by
    rw [List.isSuffixOf_iff_suffix]
    exact ⟨'<' :: '<' :: content, by simp⟩
  have hlen : ('<' :: '<' :: content ++ ['>', '>']).length - 4 = content.length := by
    simp
  have hext : (('<' :: '<' :: content ++ ['>', '>']).drop 2).take
      (('<' :: '<' :: content ++ ['>', '>']).length - 4) = content := by
    rw [hlen]
    rw [show ('<' :: '<' :: content ++ ['>', '>']).drop 2 = content ++ ['>', '>'] from rfl]
    exact List.take_left' rfl
  constructor
  · intro n q r hsp hn hq
    dsimp only [partToToken]
    rw [if_pos ⟨hpre, hsuf⟩, hext, hsp]
    dsimp only
    rw [if_pos ⟨hn, hq⟩]
  · dsimp only [partToToken]
    rw [if_pos ⟨hpre, hsuf⟩, hext]
    cases hsp : jsSplitBar content with
    | nil =>
      constructor
      · intro _ n q r hc
        exact absurd hc (by simp)
      · intro _
        rfl
    | cons n rest =>
      cases rest with
      | nil =>
        constructor
        · intro _ n' q' r' hc
          exact absurd hc (by simp)
        · intro _
          rfl
      | cons q r0 =>
        dsimp only
        by_cases hnq : n ≠ [] ∧ q ≠ []
        · rw [if_pos hnq]
          constructor
          · intro hcontra
            simp at hcontra
          · intro hall
            rcases hall n q r0 rfl with h | h
            · exact absurd h hnq.1
            · exact absurd h hnq.2
        · rw [if_neg hnq]
          constructor
          · intro _ n' q' r' hc
            have hn' : n' = n := by simp at hc; exact hc.1.symm
            have hq' : q' = q := by simp at hc; exact hc.2.1.symm
            subst hn'; subst hq'
            by_cases hn0 : n' = []
            · exact .inl hn0
            · right
              by_contra hq0
              exact hnq ⟨hn0, hq0⟩
          · intro _
            rfl

/-- Claim C4, witness: the amended behaviour at the concrete span
`<<a|b|c>>`, which yields the annotation token `(a, b)`. -/
theorem claim_C4_witness :
    partToToken ('<' :: '<' :: ("a|b|c").data ++ ['>', '>'])
      = .ann ("a").data ("b").data :=
  (claim_C4 (("a|b|c").data) (by decide) (by decide)).1 (("a").data) (("b").data)
    [("c").data] (by decide) (by decide) (by decide)

/--
Claim C5: with a fresh (empty) image cache, the background loop issues
exactly one `generateStepVisual` request per step, in step order, and the
context embedded in the request for step `i` is the markup-stripped
instructions of steps `0 … i-1` joined by `"; "` (with the start-of-recipe
clause when there are none).  The trace model is a sequential event list,
so the requests are never concurrent by construction.
-/
theorem claim_C5 (steps : List (List Char))
    (outcome : Nat → Except Unit (Option (List Char))) :
    (generateAllStepImages steps (fun _ => false) outcome).filter isReqEv
      = (List.range steps.length).map (fun i =>
          LoopEv.req i (if i = 0 then ("Start of recipe.").data
            else ("PREVIOUS STEPS CONTEXT (The dish state so far): ").data
              ++ List.intercalate (("; ").data) ((steps.take i).map cleanTextL)
              ++ (".").data)) := by
  rw [stepImages_filter_req]
  have hsimp : ∀ i : Nat, (if (fun _ => false) i then ([] : List LoopEv)
      else [LoopEv.req i (contextStr (steps.take i))])
      = [LoopEv.req i (contextStr (steps.take i))] := fun i => rfl
  simp only [hsimp]
  rw [flatMap_singleton_map (fun i => LoopEv.req i (contextStr (steps.take i)))]
  apply List.map_congr_left
  intro i hi
  have hin : i < steps.length := List.mem_range.mp hi
  by_cases h0 : i = 0
  · subst h0
    rfl
  · rw [if_neg h0]
    dsimp only [contextStr]
    rw [if_pos (by simp [List.length_take]; omega)]

/--
Claim C6, counterexample.  For a two-step recipe whose cache already holds
an image for step 0, the loop's `continue` skips the whole iteration for
step 0 — including the trailing delay — so no 4-second wait separates the
iterations even though step index 0 is below `n - 1`; the claim's
"regardless of … skipped because an image was already cached" fails.
-/
theorem claim_C6_counterexample :
    generateAllStepImages [("a").data, ("b").data] (fun i => i == 0) (fun _ => .ok none)
      = [LoopEv.req 1 (contextStr [("a").data])]
    ∧ (generateAllStepImages [("a").data, ("b").data] (fun i => i == 0)
        (fun _ => .ok none)).filter isWaitEv = [] := by
  refine ⟨by decide, by decide⟩

/--
Claim C6, amended: the 4-second delay follows exactly the iterations that
actually issue a request and are not the last step index — one wait per
non-cached index below `n - 1`, regardless of whether the request
succeeded or failed; iterations skipped because of a cached image
contribute neither a request nor a delay, and the request/wait trace is
independent of the request outcomes.
-/
theorem claim_C6 (steps : List (List Char)) (cache : Nat → Bool)
    (o o' : Nat → Except Unit (Option (List Char))) :
    ((generateAllStepImages steps cache o).filter isWaitEv).length
      = ((List.range (steps.length - 1)).filter (fun i => !cache i)).length
    ∧ (generateAllStepImages steps cache o).filter (fun e => !isStoreEv e)
      = (generateAllStepImages steps cache o').filter (fun e => !isStoreEv e) := by
  constructor
  · rw [stepImages_filter_wait]
    have hpt : (fun i => if cache i then ([] : List LoopEv)
        else if i < steps.length - 1 then [LoopEv.wait 4000] else [])
        = (fun i => if decide (i < steps.length - 1) && !cache i
            then [LoopEv.wait 4000] else []) := by
      funext i
      by_cases hc : cache i <;> by_cases hw : i < steps.length - 1 <;> simp [hc, hw]
    rw [hpt, flatMap_ite_length]
    have hcomm : (fun i => decide (i < steps.length - 1) && !cache i)
        = (fun i => !cache i && decide (i < steps.length - 1)) := by
      funext i
      exact Bool.and_comm _ _
    rw [hcomm, ← List.filter_filter, range_filter_lt]
  · unfold generateAllStepImages
    rw [List.filter_flatMap, List.filter_flatMap]
    congr 1
    funext i
    by_cases hc : cache i
    · simp [hc]
    · simp only [hc, Bool.false_eq_true, if_false, List.filter_append]
      have hs : ∀ oc : Except Unit (Option (List Char)),
          (match oc with
           | .ok (some url) => [LoopEv.store i url]
           | _ => ([] : List LoopEv)).filter (fun e => !isStoreEv e) = [] := by
        intro oc
        cases oc with
        | error u => rfl
        | ok v =>
          cases v with
          | none => rfl
          | some url => simp [isStoreEv]
      rw [hs (o i), hs (o' i)]

/--
Claim C7: `pcmToWav` is a pure total function; for every payload the
output is the 44-byte header followed by the payload verbatim, and for an
8000-byte payload at 24000 Hz the output has exactly 8044 bytes, carries
`byte_rate = 48000` little-endian at offset 28 and `block_align = 2`
little-endian at offset 32, and the payload starts at offset 44.  No
divisibility of the payload length by block align is required.
-/
theorem claim_C7 :
    (∀ (pcm : List Nat) (sr : Nat),
      (pcmToWav pcm sr).length = 44 + pcm.length
      ∧ (pcmToWav pcm sr).drop 44 = pcm)
    ∧ (∀ pcm : List Nat, pcm.length = 8000 →
      (pcmToWav pcm 24000).length = 8044
      ∧ readLE32 (pcmToWav pcm 24000) 28 = 48000
      ∧ readLE16 (pcmToWav pcm 24000) 32 = 2
      ∧ (pcmToWav pcm 24000).drop 44 = pcm) := by
  have hgenlen : ∀ (pcm : List Nat) (sr : Nat),
      (pcmToWav pcm sr).length = 44 + pcm.length := by
    intro pcm sr
    rw [pcmToWav_eq, List.length_append, wavHeader_length]
  have hgendrop : ∀ (pcm : List Nat) (sr : Nat), (pcmToWav pcm sr).drop 44 = pcm := by
    intro pcm sr
    rw [pcmToWav_eq]
    exact List.drop_left' (wavHeader_length sr pcm.length)
  refine ⟨fun pcm sr => ⟨hgenlen pcm sr, hgendrop pcm sr⟩, ?_⟩
  intro pcm hlen
  have hw : pcmToWav pcm 24000 = wavHeader 24000 8000 ++ pcm := by
    rw [pcmToWav_eq, hlen]
  have hklt : ∀ k, k < 44 → (wavHeader 24000 8000 ++ pcm).getD k 0
      = (wavHeader 24000 8000).getD k 0 := by
    intro k hk
    exact List.getD_append _ _ _ _ (by rw [wavHeader_length]; exact hk)
  refine ⟨by rw [hgenlen, hlen], ?_, ?_, hgendrop pcm 24000⟩
  · rw [hw]
    show (wavHeader 24000 8000 ++ pcm).getD 28 0
        + 256 * (wavHeader 24000 8000 ++ pcm).getD 29 0
        + 256 ^ 2 * (wavHeader 24000 8000 ++ pcm).getD 30 0
        + 256 ^ 3 * (wavHeader 24000 8000 ++ pcm).getD 31 0 = 48000
    rw [hklt 28 (by omega), hklt 29 (by omega), hklt 30 (by omega), hklt 31 (by omega)]
    decide
  · rw [hw]
    show (wavHeader 24000 8000 ++ pcm).getD 32 0
        + 256 * (wavHeader 24000 8000 ++ pcm).getD 33 0 = 2
    rw [hklt 32 (by omega), hklt 33 (by omega)]
    decide

/-- Claim C7, witness: the header facts at a concrete 8000-byte payload. -/
theorem claim_C7_witness :
    (List.replicate 8000 0).length = 8000
    ∧ ((pcmToWav (List.replicate 8000 0) 24000).length = 8044
      ∧ readLE32 (pcmToWav (List.replicate 8000 0) 24000) 28 = 48000
      ∧ readLE16 (pcmToWav (List.replicate 8000 0) 24000) 32 = 2
      ∧ (pcmToWav (List.replicate 8000 0) 24000).drop 44 = List.replicate 8000 0) :=
  ⟨by rw [List.length_replicate], claim_C7.2 _ (by rw [List.length_replicate])⟩

/--
Claim C8: the three best-effort operations swallow every error the
retry-wrapped call re-throws (including errors surviving retry
exhaustion): leftovers degrade to the empty array, the dish visual and the
step audio to `none`; in particular when every attempt of the underlying
call fails the operations return their degraded values, and by their
return types no error propagates to the caller.
-/
theorem claim_C8 :
    (∀ api : Nat → Except ApiError GenResponse,
      (∀ e, (withRetry (fun i => leftoverAttempt (api i)) 3 2000).1 = .err e →
        generateLeftoverSuggestions api = Json.arr [])
      ∧ ((∀ i, ∃ e, api i = .error e) → generateLeftoverSuggestions api = Json.arr []))
    ∧ (∀ api : Nat → Except ApiError VisResponse,
      (∀ e, (withRetry (fun i => visualAttempt (api i)) 3 2000).1 = .err e →
        generateRecipeVisual api = none)
      ∧ ((∀ i, ∃ e, api i = .error e) → generateRecipeVisual api = none))
    ∧ (∀ (txt : List Char) (api : List Char → Nat → Except ApiError AudioResponse),
      (∀ e, (withRetry (fun i => audioAttempt (api (spokenTextL txt) i)) 3 2000).1 = .err e →
        generateStepAudio txt api = none)
      ∧ ((∀ i, ∃ e, api (spokenTextL txt) i = .error e) →
        generateStepAudio txt api = none)) := by
  refine ⟨fun api => ⟨?_, ?_⟩, fun api => ⟨?_, ?_⟩, fun txt api => ⟨?_, ?_⟩⟩
  · intro e h
    unfold generateLeftoverSuggestions
    rw [h]
  · intro hall
    obtain ⟨-, j, -, -, hcase⟩ :=
      withRetryGo_chars (fun i => leftoverAttempt (api i)) 2000 3 0 (by omega)
    rcases hcase with ⟨v, hok, -⟩ | ⟨e, -, hres⟩
    · exfalso
      obtain ⟨e0, he0⟩ := hall j
      have hok' : leftoverAttempt (api j) = .ok v := hok
      rw [he0] at hok'
      simp [leftoverAttempt] at hok'
    · have hres' : (withRetry (fun i => leftoverAttempt (api i)) 3 2000).1 = .err e := hres
      unfold generateLeftoverSuggestions
      rw [hres']
  · intro e h
    unfold generateRecipeVisual
    rw [h]
  · intro hall
    obtain ⟨-, j, -, -, hcase⟩ :=
      withRetryGo_chars (fun i => visualAttempt (api i)) 2000 3 0 (by omega)
    rcases hcase with ⟨v, hok, -⟩ | ⟨e, -, hres⟩
    · exfalso
      obtain ⟨e0, he0⟩ := hall j
      have hok' : visualAttempt (api j) = .ok v := hok
      rw [he0] at hok'
      simp [visualAttempt] at hok'
    · have hres' : (withRetry (fun i => visualAttempt (api i)) 3 2000).1 = .err e := hres
      unfold generateRecipeVisual
      rw [hres']
  · intro e h
    show (match (withRetry (fun i => audioAttempt (api (spokenTextL txt) i)) 3 2000).1 with
      | .ok v => v
      | _ => none) = none
    rw [h]
  · intro hall
    obtain ⟨-, j, -, -, hcase⟩ :=
      withRetryGo_chars (fun i => audioAttempt (api (spokenTextL txt) i)) 2000 3 0 (by omega)
    rcases hcase with ⟨v, hok, -⟩ | ⟨e, -, hres⟩
    · exfalso
      obtain ⟨e0, he0⟩ := hall j
      have hok' : audioAttempt (api (spokenTextL txt) j) = .ok v := hok
      rw [he0] at hok'
      simp [audioAttempt] at hok'
    · have hres' :
          (withRetry (fun i => audioAttempt (api (spokenTextL txt) i)) 3 2000).1 = .err e :=
        hres
      show (match (withRetry (fun i => audioAttempt (api (spokenTextL txt) i)) 3 2000).1 with
        | .ok v => v
        | _ => none) = none
      rw [hres']

/-- Claim C8, witness: the degraded values at an upstream that always
fails with a 503. -/
theorem claim_C8_witness :
    generateLeftoverSuggestions (fun _ => .error failErr) = Json.arr []
    ∧ generateRecipeVisual (fun _ => .error failErr) = none
    ∧ generateStepAudio (("x").data) (fun _ _ => .error failErr) = none :=
  ⟨(claim_C8.1 (fun _ => .error failErr)).2 (fun _ => ⟨failErr, rfl⟩),
   (claim_C8.2.1 (fun _ => .error failErr)).2 (fun _ => ⟨failErr, rfl⟩),
   (claim_C8.2.2 (("x").data) (fun _ _ => .error failErr)).2 (fun _ => ⟨failErr, rfl⟩)⟩

/--
Claim C9, counterexample.  A text may contain an unterminated `<<` and
also a well-formed marker: `<<a|b>><<` ends in a `<<` with no matching
`>>`, yet strip-for-context rewrites the leading marker, so the text does
not pass through unchanged — only the malformed span itself stays literal.
-/
theorem claim_C9_counterexample :
    ("<<a|b>><<").data = ("<<a|b>>").data ++ ('<' :: '<' :: [])
    ∧ cleanTextL (("<<a|b>><<").data) = ("a<<").data
    ∧ cleanTextL (("<<a|b>><<").data) ≠ ("<<a|b>><<").data := by
  refine ⟨by decide, by decide, by decide⟩

/--
Claim C9, amended: a text with no `>` at all — in particular one whose
only markup is an unterminated `<<…` — passes through all three transforms
unchanged, and spans with an empty name, an empty quantity, or no `|`
(`<<|b>>`, `<<a|>>`, `<<ab>>`) also pass through all three unchanged.  The
transforms are total functions, hence never throw; but a text containing
both a malformed span and a well-formed marker keeps the malformed span
literal while the marker is still transformed.
-/
theorem claim_C9 :
    (∀ t : List Char, '>' ∉ t →
      cleanTextL t = t ∧ spokenTextL t = t ∧ visibleText t = t)
    ∧ (cleanTextL (("<<|b>>").data) = ("<<|b>>").data
      ∧ spokenTextL (("<<|b>>").data) = ("<<|b>>").data
      ∧ visibleText (("<<|b>>").data) = ("<<|b>>").data)
    ∧ (cleanTextL (("<<a|>>").data) = ("<<a|>>").data
      ∧ spokenTextL (("<<a|>>").data) = ("<<a|>>").data
      ∧ visibleText (("<<a|>>").data) = ("<<a|>>").data)
    ∧ (cleanTextL (("<<ab>>").data) = ("<<ab>>").data
      ∧ spokenTextL (("<<ab>>").data) = ("<<ab>>").data
      ∧ visibleText (("<<ab>>").data) = ("<<ab>>").data) := by
  refine ⟨?_, by decide, by decide, by decide⟩
  intro t ht
  refine ⟨replaceAnn_no_gt _ ht, replaceAnn_no_gt _ ht, ?_⟩
  rw [visibleText_eq_partsVisible, splitSpans_no_gt ht]
  dsimp only [partsVisible]
  rw [partToToken_lit_no_gt ht]
  simp [tokenVisible]

/-- Claim C9, witness: the amended behaviour at the concrete unterminated
text `<<unterminated`. -/
theorem claim_C9_witness :
    cleanTextL (("<<unterminated").data) = ("<<unterminated").data
    ∧ spokenTextL (("<<unterminated").data) = ("<<unterminated").data
    ∧ visibleText (("<<unterminated").data) = ("<<unterminated").data :=
  claim_C9.1 (("<<unterminated").data) (by decide)

/--
Claim C10: for any operation and any positive attempt count, `withRetry`
either returns a value produced by some attempt or re-throws an error
thrown by some attempt within range; the trailing
`throw new Error("Max retries exceeded")` after the loop is unreachable.
-/
theorem claim_C10 {α : Type} (op : Nat → Except ApiError α) (retries baseDelay : Nat)
    (h : 1 ≤ retries) :
    (withRetry op retries baseDelay).1 ≠ .exhausted
    ∧ ∃ j, j < retries ∧
      ((∃ v, op j = .ok v ∧ (withRetry op retries baseDelay).1 = .ok v)
       ∨ (∃ e, op j = .error e ∧ (withRetry op retries baseDelay).1 = .err e)) := by
  obtain ⟨hne, j, -, hj2, hj3⟩ := withRetryGo_chars op baseDelay retries 0 h
  exact ⟨hne, j, by omega, hj3⟩

/-- Claim C10, witness: the safety property at a concrete immediately
successful operation with the source's default 3 attempts. -/
theorem claim_C10_witness :
    (withRetry okOp 3 2000).1 ≠ .exhausted
    ∧ ∃ j, j < 3 ∧
      ((∃ v, okOp j = .ok v ∧ (withRetry okOp 3 2000).1 = .ok v)
       ∨ (∃ e, okOp j = .error e ∧ (withRetry okOp 3 2000).1 = .err e)) :=
  claim_C10 okOp 3 2000 (by decide)

end RoyalRecipes
